import Mathlib

/-!
Verification of the sidechain state engine (`src/sc/sidechain.h` and its unit
tests `src/gtest/test_sidechain.cpp`).

The implementation file of the engine is not part of the sources; only the
class declarations (`sidechain.h`, including the inline `ScInfo::operator==`)
and the exhaustive unit-test suite are.  Operations whose bodies are missing
are therefore modelled from the specification, with the repository's unit
tests taken as the authority wherever the two disagree; every such definition
carries a doc comment starting with `Modelled from the spec:`.

Maps (`std::map<int, CAmount>` and the sidechain-id keyed record maps) are
embedded as association lists with ordered insertion, lookups returning
`Option`, and machine integers as `Int` (all amounts stay far below 2^63, and
the code's own `MAX_MONEY` bound is checked explicitly wherever the C++ code
checks it, so no wrap-around arithmetic is observable).
-/

namespace Sidechain

/-- Chain-wide monetary bound: 21,000,000 coins of 10^8 smallest units
(`MAX_MONEY` in `amount.h`; the spec calls it "a chain-wide constant"). -/
def MAX_MONEY : Int := 2100000000000000

/-- Reject code used by all semantic-validation failures (`REJECT_INVALID`). -/
def REJECT_INVALID : Nat := 16

/-! ### Ordered association maps

`std::map` and the record maps are embedded as association lists.  `omapSet`
replaces the first matching binding in place, or inserts a fresh binding at
its ordered position; `omapErase` removes every binding of the key. -/

section Omap

variable {α : Type} {β : Type} [LinearOrder α]

/-- Lookup of the first binding of a key. -/
def omapGet : List (α × β) → α → Option β
  | [], _ => none
  | (k, v) :: t, a => if k = a then some v else omapGet t a

/-- Replace the value of the first binding of `a` (no-op when absent). -/
def replaceFirst : List (α × β) → α → β → List (α × β)
  | [], _, _ => []
  | (k, v) :: t, a, b => if k = a then (a, b) :: t else (k, v) :: replaceFirst t a b

/-- Insert a fresh binding at its ordered position (used only when absent). -/
def sortedInsert : List (α × β) → α → β → List (α × β)
  | [], a, b => [(a, b)]
  | (k, v) :: t, a, b => if a < k then (a, b) :: (k, v) :: t else (k, v) :: sortedInsert t a b

/-- `m[a] = b` with `std::map` semantics. -/
def omapSet (m : List (α × β)) (a : α) (b : β) : List (α × β) :=
  match omapGet m a with
  | some _ => replaceFirst m a b
  | none => sortedInsert m a b

/-- `m.erase(a)`. -/
def omapErase : List (α × β) → α → List (α × β)
  | [], _ => []
  | (k, v) :: t, a => if k = a then omapErase t a else (k, v) :: omapErase t a

end Omap

/-! ### Data model -/

/-- Opaque 256-bit sidechain identifier (`uint256`), bytewise equality. -/
abbrev ScId := Nat

/-- Monetary amount (`CAmount`), a signed 64-bit integer. -/
abbrev CAmount := Int

/-- Opaque creation-parameters blob (`ScCreationParameters`), bytewise
equality; its internal structure is irrelevant to every claim. -/
abbrev ScCreationData := Nat

/-- One record per live sidechain (`Sidechain::ScInfo`). -/
structure ScInfo where
  creationBlockHash : Nat
  creationBlockHeight : Int
  creationTxHash : Nat
  balance : CAmount
  creationData : ScCreationData
  mImmatureAmounts : List (Int × CAmount)
  deriving DecidableEq, Repr

/-- Default-constructed record: `ScInfo() : creationBlockHash(),
creationBlockHeight(-1), creationTxHash(), balance(0)`. -/
def ScInfo.default : ScInfo :=
  { creationBlockHash := 0
    creationBlockHeight := -1
    creationTxHash := 0
    balance := 0
    creationData := 0
    mImmatureAmounts := [] }

/-- The inline `ScInfo::operator==` of `sidechain.h` (lines 64-71): it
compares `creationBlockHash`, `creationBlockHeight`, `creationTxHash`,
`creationData` and `mImmatureAmounts` — and does not compare `balance`. -/
def ScInfo.eqOp (a b : ScInfo) : Bool :=
  (a.creationBlockHash == b.creationBlockHash) &&
  (a.creationBlockHeight == b.creationBlockHeight) &&
  (a.creationTxHash == b.creationTxHash) &&
  (a.creationData == b.creationData) &&
  (a.mImmatureAmounts == b.mImmatureAmounts)

/-- Sum of the pending amounts of an immature-amounts map. -/
def imSum (m : List (Int × CAmount)) : Int :=
  (m.map (fun p => p.2)).sum

/-- `m[k] += v` with `std::map` semantics (an absent key starts at zero). -/
def omapAdd (m : List (Int × CAmount)) (k : Int) (v : CAmount) :
    List (Int × CAmount) :=
  match omapGet m k with
  | some w => omapSet m k (w + v)
  | none => omapSet m k v

/-- Every pending amount of a record map is strictly positive — the
maturity-pipeline shape every reachable overlay satisfies, since forward
amounts are strictly positive after semantic validation and subtraction to
zero removes the key. -/
def PosImm (c : List (ScId × ScInfo)) : Prop :=
  ∀ p ∈ c, ∀ q ∈ p.2.mImmatureAmounts, 0 < q.2

/-- Committed / cached record map (`ScInfoMap`). -/
abbrev ScInfoMap := List (ScId × ScInfo)

/-- Sidechain-creation output of a transaction (`scId` plus opaque creation
parameters). -/
structure CTxScCreationOut where
  scId : ScId
  creationData : ScCreationData
  deriving DecidableEq, Repr

/-- Forward-transfer output of a transaction (`scId`, amount). -/
structure CTxForwardTransferOut where
  scId : ScId
  nValue : CAmount
  deriving DecidableEq, Repr

/-- The sidechain-relevant projection of a `CTransaction`: its hash, whether
it is of the transparent flavor, and its two lists of sidechain outputs. -/
structure CTransaction where
  txHash : Nat
  isTransparent : Bool
  vsc_ccout : List CTxScCreationOut
  vft_ccout : List CTxForwardTransferOut
  deriving DecidableEq, Repr

/-- Validation-state outcome (`CValidationState`): validity flag and reject
code. -/
structure CValidationState where
  isValid : Bool
  rejectCode : Nat
  deriving DecidableEq, Repr

/-- A fresh, valid `CValidationState`. -/
def CValidationState.valid : CValidationState := ⟨true, 0⟩

/-- The state after `state.DoS(.., REJECT_INVALID, ..)`. -/
def CValidationState.invalid16 : CValidationState := ⟨false, REJECT_INVALID⟩

/-- Per-block undo record (`CBlockUndo.msc_iaundo`): per affected sidechain,
a map from original acceptance height to the amount to restore. -/
abbrev CBlockUndo := List (ScId × List (Int × CAmount))

/-- The sidechain-relevant projection of a `CBlock`: its hash. -/
structure CBlock where
  blockHash : Nat
  deriving DecidableEq, Repr

/-! ### Coins View Cache state -/

/-- The transactional overlay (`Sidechain::ScCoinsViewCache` data members). -/
structure ScCoinsViewCache where
  cacheScInfoMap : ScInfoMap
  sErase : List ScId
  sDirty : List ScId
  deriving DecidableEq, Repr

/-- Set-insert into an id set (`std::set<uint256>::insert`). -/
def sInsert (a : ScId) (s : List ScId) : List ScId :=
  if a ∈ s then s else a :: s

/-- Set-removal from an id set (`std::set<uint256>::erase`). -/
def sRemove (a : ScId) (s : List ScId) : List ScId :=
  s.filter (fun x => x ≠ a)

/-- Modelled from the spec: the `ScCoinsViewCache` constructor is not in the
sources; the unit test `UponViewCreationAllPersistedTxsAreLoaded` pins its
behavior — a fresh view's `CacheScInfoMap` equals the manager's committed
map, i.e. the overlay is seeded with a full copy of committed state. -/
def newView (mgr : ScInfoMap) : ScCoinsViewCache :=
  { cacheScInfoMap := mgr, sErase := [], sDirty := [] }

/-- Modelled from the spec: `ScCoinsViewCache::sidechainExists` (declaration
only in `sidechain.h`).  Since the overlay is seeded with the full committed
map and erased records are removed from it, visibility is membership in
`CacheScInfoMap`. -/
def ScCoinsViewCache.sidechainExistsView (s : ScCoinsViewCache) (scId : ScId) : Bool :=
  (omapGet s.cacheScInfoMap scId).isSome

/-! ### Per-output state transitions

Each sidechain output of a transaction induces one partial transition of the
overlay.  The transition of the record map (`..C`) is separated from the
bookkeeping of the `sErase`/`sDirty` sets (`..S`) so that the reversal
theorems can be stated at the record-map level. -/

/-- Fresh record inserted by a creation output: `creationBlockHash =
block.hash`, `creationBlockHeight = height`, `creationTxHash = tx.hash`,
`balance = 0`, `creationData` from the output, empty `immatureAmounts`. -/
def freshScInfo (block : CBlock) (txHash : Nat) (height : Int)
    (d : ScCreationData) : ScInfo :=
  { creationBlockHash := block.blockHash
    creationBlockHeight := height
    creationTxHash := txHash
    balance := 0
    creationData := d
    mImmatureAmounts := [] }

/-- Modelled from the spec: record-map effect of applying one creation output
(`UpdateScInfo`, creation case): fail when the id is already visible, else
insert a fresh record. -/
def applyCrC (block : CBlock) (txHash : Nat) (height : Int)
    (cr : CTxScCreationOut) (c : ScInfoMap) : Option ScInfoMap :=
  match omapGet c cr.scId with
  | some _ => none
  | none => some (omapSet c cr.scId (freshScInfo block txHash height cr.creationData))

/-- Modelled from the spec: record-map effect of applying one forward-transfer
output (`UpdateScInfo`, forward case): the target must be visible; add the
amount at `height + ScCoinsMaturity`; fail when the updated record violates
`balance + Σ immature ≤ MAX_MONEY`. -/
def applyFwdC (maturity height : Int) (ft : CTxForwardTransferOut)
    (c : ScInfoMap) : Option ScInfoMap :=
  match omapGet c ft.scId with
  | none => none
  | some info =>
    if info.balance +
        imSum (omapAdd info.mImmatureAmounts (height + maturity) ft.nValue) >
        MAX_MONEY then none
    else some (omapSet c ft.scId
      { info with mImmatureAmounts := omapAdd info.mImmatureAmounts (height + maturity) ft.nValue })

/-- Modelled from the spec: record-map effect of reverting one forward
transfer (`RevertTxOutputs`): the target must be visible, the immature entry
at `height + maturity` must exist and be at least the amount; subtract it and
remove the key when it reaches zero. -/
def revertFwdC (maturity height : Int) (ft : CTxForwardTransferOut)
    (c : ScInfoMap) : Option ScInfoMap :=
  match omapGet c ft.scId with
  | none => none
  | some info =>
    match omapGet info.mImmatureAmounts (height + maturity) with
    | none => none
    | some e =>
      if e < ft.nValue then none
      else some (omapSet c ft.scId
        { info with mImmatureAmounts := if e - ft.nValue = 0 then omapErase info.mImmatureAmounts (height + maturity) else omapSet info.mImmatureAmounts (height + maturity) (e - ft.nValue) })

/-- Modelled from the spec: record-map effect of reverting one creation
output (`RevertTxOutputs`): the id must be visible and the record's
`creationBlockHeight` must equal the height; remove the record. -/
def revertCrC (height : Int) (cr : CTxScCreationOut) (c : ScInfoMap) :
    Option ScInfoMap :=
  match omapGet c cr.scId with
  | none => none
  | some info =>
    if info.creationBlockHeight = height then some (omapErase c cr.scId)
    else none

/-- Full-state effect of one creation output: record-map core plus marking
the id dirty. -/
def applyCrS (block : CBlock) (txHash : Nat) (height : Int)
    (cr : CTxScCreationOut) (s : ScCoinsViewCache) : Option ScCoinsViewCache :=
  (applyCrC block txHash height cr s.cacheScInfoMap).map
    (fun c => ⟨c, s.sErase, sInsert cr.scId s.sDirty⟩)

/-- Full-state effect of one forward-transfer output: record-map core plus
marking the id dirty. -/
def applyFwdS (maturity height : Int) (ft : CTxForwardTransferOut)
    (s : ScCoinsViewCache) : Option ScCoinsViewCache :=
  (applyFwdC maturity height ft s.cacheScInfoMap).map
    (fun c => ⟨c, s.sErase, sInsert ft.scId s.sDirty⟩)

/-- Full-state effect of reverting one forward transfer: record-map core plus
marking the id dirty. -/
def revertFwdS (maturity height : Int) (ft : CTxForwardTransferOut)
    (s : ScCoinsViewCache) : Option ScCoinsViewCache :=
  (revertFwdC maturity height ft s.cacheScInfoMap).map
    (fun c => ⟨c, s.sErase, sInsert ft.scId s.sDirty⟩)

/-- Full-state effect of reverting one creation: record-map core plus moving
the id from `sDirty` to `sErase`. -/
def revertCrS (height : Int) (cr : CTxScCreationOut) (s : ScCoinsViewCache) :
    Option ScCoinsViewCache :=
  (revertCrC height cr s.cacheScInfoMap).map
    (fun c => ⟨c, sInsert cr.scId s.sErase, sRemove cr.scId s.sDirty⟩)

/-- Sequential application of per-output transitions with the code's failure
semantics: stop at the first failing output and return `false` together with
the partially mutated state. -/
def seqApplyS (f : α → ScCoinsViewCache → Option ScCoinsViewCache) :
    List α → ScCoinsViewCache → Bool × ScCoinsViewCache
  | [], s => (true, s)
  | x :: xs, s =>
    match f x s with
    | none => (false, s)
    | some s2 => seqApplyS f xs s2

/-- Record-map-level analogue of `seqApplyS`. -/
def seqApplyC (f : α → ScInfoMap → Option ScInfoMap) :
    List α → ScInfoMap → Bool × ScInfoMap
  | [], c => (true, c)
  | x :: xs, c =>
    match f x c with
    | none => (false, c)
    | some c2 => seqApplyC f xs c2

/-- Modelled from the spec: `ScCoinsViewCache::UpdateScInfo` (declaration
only in `sidechain.h`).  Applies the transaction's sidechain outputs in
order — creation outputs, then forward-transfer outputs — with observable
partial application on failure. -/
def UpdateScInfo (maturity : Int) (tx : CTransaction) (block : CBlock)
    (height : Int) (s : ScCoinsViewCache) : Bool × ScCoinsViewCache :=
  match seqApplyS (applyCrS block tx.txHash height) tx.vsc_ccout s with
  | (false, s2) => (false, s2)
  | (true, s2) => seqApplyS (applyFwdS maturity height) tx.vft_ccout s2

/-- Modelled from the spec: `ScCoinsViewCache::RevertTxOutputs` (declaration
only in `sidechain.h`).  Reverts the transaction's sidechain outputs in
reverse order — forward transfers first, then creations. -/
def RevertTxOutputs (maturity : Int) (tx : CTransaction) (height : Int)
    (s : ScCoinsViewCache) : Bool × ScCoinsViewCache :=
  match seqApplyS (revertFwdS maturity height) tx.vft_ccout.reverse s with
  | (false, s2) => (false, s2)
  | (true, s2) => seqApplyS (revertCrS height) tx.vsc_ccout.reverse s2

/-! ### Maturation and its undo -/

/-- Modelled from the spec: processing of one record's ordered immature map
by `ApplyMatureBalances` at `height`: an entry whose key is strictly below
`height` means the call came too late and fails the whole operation; an entry
whose key equals `height` matures (it is removed and its amount credited);
later entries are kept.  Returns the remaining map and the matured total. -/
def processImm (height : Int) : List (Int × CAmount) →
    Option (List (Int × CAmount) × CAmount)
  | [] => some ([], 0)
  | (k, v) :: rest =>
    if k < height then none
    else
      match processImm height rest with
      | none => none
      | some (r, tot) =>
        if k = height then some (r, tot + v) else some ((k, v) :: r, tot)

/-- Modelled from the spec: per-record step of `ApplyMatureBalances`: mature
the entries at exactly `height`, credit `balance`, record
`(scId, height - maturity, amount)` into the block-undo, and mark dirty. -/
def applyMatureRecord (maturity height : Int) (scId : ScId) (info : ScInfo)
    (s : ScCoinsViewCache) (undo : CBlockUndo) :
    Option (ScCoinsViewCache × CBlockUndo) :=
  match processImm height info.mImmatureAmounts with
  | none => none
  | some (rest, tot) =>
    if tot = 0 then some (s, undo)
    else
      let info2 := { info with balance := info.balance + tot, mImmatureAmounts := rest }
      some (⟨omapSet s.cacheScInfoMap scId info2, s.sErase, sInsert scId s.sDirty⟩,
            omapSet undo scId [(height - maturity, tot)])

/-- Iteration of `applyMatureRecord` over a list of records, with the failure
semantics of the engine (stop at the first late record). -/
def applyMatureList (maturity height : Int) :
    List (ScId × ScInfo) → ScCoinsViewCache → CBlockUndo →
    Bool × ScCoinsViewCache × CBlockUndo
  | [], s, undo => (true, s, undo)
  | (scId, info) :: rest, s, undo =>
    match applyMatureRecord maturity height scId info s undo with
    | none => (false, s, undo)
    | some (s2, undo2) => applyMatureList maturity height rest s2 undo2

/-- Modelled from the spec: `ScCoinsViewCache::ApplyMatureBalances`
(declaration only in `sidechain.h`).  Walks every cached record's ordered
immature map; per the unit tests, a call at a height **before** every pending
maturity succeeds without maturing anything, while a pending entry whose
maturity height was already passed makes the call fail. -/
def ApplyMatureBalances (maturity height : Int) (s : ScCoinsViewCache)
    (undo : CBlockUndo) : Bool × ScCoinsViewCache × CBlockUndo :=
  applyMatureList maturity height s.cacheScInfoMap s undo

/-- Modelled from the spec: per-record core of `RestoreImmatureBalances`:
replay the undo entries of one record against a local copy — each amount must
be covered by the running balance, is subtracted from it and re-inserted at
`origHeight + maturity` — so that a failing record mutates nothing. -/
def restoreRecord (maturity : Int) : List (Int × CAmount) → ScInfo → Option ScInfo
  | [], info => some info
  | (origHeight, amount) :: rest, info =>
    if info.balance < amount then none
    else
      let key := origHeight + maturity
      let imm :=
        match omapGet info.mImmatureAmounts key with
        | some w => omapSet info.mImmatureAmounts key (w + amount)
        | none => omapSet info.mImmatureAmounts key amount
      restoreRecord maturity rest
        { info with balance := info.balance - amount, mImmatureAmounts := imm }

/-- Iteration of `restoreRecord` over the undo's per-sidechain entries. -/
def restoreList (maturity : Int) : CBlockUndo → ScCoinsViewCache →
    Bool × ScCoinsViewCache
  | [], s => (true, s)
  | (scId, hm) :: rest, s =>
    match omapGet s.cacheScInfoMap scId with
    | none => (false, s)
    | some info =>
      match restoreRecord maturity hm info with
      | none => (false, s)
      | some info2 =>
        restoreList maturity rest
          ⟨omapSet s.cacheScInfoMap scId info2, s.sErase, sInsert scId s.sDirty⟩

/-- Modelled from the spec: `ScCoinsViewCache::RestoreImmatureBalances`
(declaration only in `sidechain.h`): the inverse of maturation, driven by the
block-undo record. -/
def RestoreImmatureBalances (maturity : Int) (s : ScCoinsViewCache)
    (undo : CBlockUndo) : Bool × ScCoinsViewCache :=
  restoreList maturity undo s

/-! ### Manager queries, validators, and commit -/

/-- Modelled from the spec: `ScMgr::sidechainExists(scId, view)`: when a view
is supplied, an id in its erase set is dead, an id in its cache is live, and
otherwise the committed map decides. -/
def ScMgr.sidechainExists (mgr : ScInfoMap) (view : Option ScCoinsViewCache)
    (scId : ScId) : Bool :=
  match view with
  | some v =>
    if scId ∈ v.sErase then false
    else if (omapGet v.cacheScInfoMap scId).isSome then true
    else (omapGet mgr scId).isSome
  | none => (omapGet mgr scId).isSome

/-- Modelled from the spec: `ScMgr::IsTxApplicableToState` (declaration only
in `sidechain.h`): every creation output's id must not already exist in the
visible state and every forward-transfer output's target must; the check is a
pure query and mutates nothing. -/
def IsTxApplicableToState (mgr : ScInfoMap) (view : Option ScCoinsViewCache)
    (tx : CTransaction) : Bool :=
  tx.vsc_ccout.all (fun cr => !(ScMgr.sidechainExists mgr view cr.scId)) &&
  tx.vft_ccout.all (fun ft => ScMgr.sidechainExists mgr view ft.scId)

/-- Running forward-amount check of `checkTxSemanticValidity`: each amount
must be strictly positive and at most `MAX_MONEY`, and the running cumulative
sum is bounds-checked before the next addition. -/
def checkFwdAmounts : List CTxForwardTransferOut → CAmount → Option CAmount
  | [], acc => some acc
  | ft :: rest, acc =>
    if ft.nValue ≤ 0 then none
    else if ft.nValue > MAX_MONEY then none
    else
      let acc2 := acc + ft.nValue
      if acc2 > MAX_MONEY then none
      else checkFwdAmounts rest acc2

/-- Sum of the forward-transfer amounts of a transaction that target `scId`. -/
def fwdSumTo (tx : CTransaction) (scId : ScId) : CAmount :=
  ((tx.vft_ccout.filter (fun ft => ft.scId = scId)).map
    (fun ft => ft.nValue)).sum

/-- Modelled from the spec: `ScMgr::checkTxSemanticValidity` (declaration
only in `sidechain.h`): a transaction with no sidechain outputs is trivially
valid; one with sidechain outputs must be transparent; every forward amount
must be in `(0, MAX_MONEY]` with the cumulative sum bounded; every creation
must be funded by same-transaction forwards totalling in `(0, MAX_MONEY]`. -/
def checkTxSemanticValidity (tx : CTransaction) : Bool × CValidationState :=
  if tx.vsc_ccout.isEmpty && tx.vft_ccout.isEmpty then
    (true, CValidationState.valid)
  else if !tx.isTransparent then (false, CValidationState.invalid16)
  else
    match checkFwdAmounts tx.vft_ccout 0 with
    | none => (false, CValidationState.invalid16)
    | some _ =>
      if tx.vsc_ccout.all (fun cr =>
          decide (0 < fwdSumTo tx cr.scId) && decide (fwdSumTo tx cr.scId ≤ MAX_MONEY)) then
        (true, CValidationState.valid)
      else (false, CValidationState.invalid16)

/-- Modelled from the spec: `ScCoinsViewCache::Flush` under the stub
persistence layer (its operations always succeed): remove every erased id
from the committed map, then copy every dirty record into it, and clear the
`sErase`/`sDirty` bookkeeping.  Per the unit test
`FlushAlignsPersistedTxsWithViewOnes` the overlay's record map survives the
flush.  Returns the flag together with the new committed map and overlay. -/
def Flush (mgr : ScInfoMap) (s : ScCoinsViewCache) :
    Bool × ScInfoMap × ScCoinsViewCache :=
  let mgr1 := s.sErase.foldl (fun m scId => omapErase m scId) mgr
  let mgr2 := s.sDirty.foldl
    (fun m scId =>
      omapSet m scId ((omapGet s.cacheScInfoMap scId).getD ScInfo.default)) mgr1
  (true, mgr2, ⟨s.cacheScInfoMap, [], []⟩)

/-! ### Transaction builders of the unit tests -/

/-- Modelled from the spec: `gtestUtils::createSidechainTxWith(scId, amount)`
— a transparent transaction with one creation output for `scId` and one
forward transfer of `amount` to it. -/
def createSidechainTxWith (txHash : Nat) (scId : ScId) (d : ScCreationData)
    (amount : CAmount) : CTransaction :=
  { txHash := txHash
    isTransparent := true
    vsc_ccout := [⟨scId, d⟩]
    vft_ccout := [⟨scId, amount⟩] }

/-- Modelled from the spec: `gtestUtils::createFwdTransferTxWith(scId,
amount)` — a transparent transaction with a single forward-transfer output. -/
def createFwdTransferTxWith (txHash : Nat) (scId : ScId) (amount : CAmount) :
    CTransaction :=
  { txHash := txHash
    isTransparent := true
    vsc_ccout := []
    vft_ccout := [⟨scId, amount⟩] }

/-! ### Lemmas about the ordered association maps -/

section OmapLemmas

variable {α : Type} {β : Type} [LinearOrder α]

theorem omapGet_eq_none_iff {m : List (α × β)} {a : α} :
    omapGet m a = none ↔ ∀ p ∈ m, p.1 ≠ a := by
  induction m with
  | nil => simp [omapGet]
  | cons p t ih =>
    obtain ⟨k, v⟩ := p
    by_cases h : k = a <;> simp [omapGet, h, ih]

theorem omapGet_replaceFirst_self {m : List (α × β)} {a : α} {w : β} (b : β)
    (h : omapGet m a = some w) :
    omapGet (replaceFirst m a b) a = some b := by
  induction m with
  | nil => simp [omapGet] at h
  | cons p t ih =>
    obtain ⟨k, v⟩ := p
    by_cases hk : k = a
    · simp [omapGet, replaceFirst, hk]
    · simp [omapGet, replaceFirst, hk] at h ⊢
      exact ih h

theorem omapGet_replaceFirst_ne {m : List (α × β)} {a c : α} (b : β) (h : c ≠ a) :
    omapGet (replaceFirst m a b) c = omapGet m c := by
  induction m with
  | nil => simp [replaceFirst]
  | cons p t ih =>
    obtain ⟨k, v⟩ := p
    by_cases hk : k = a
    · subst hk
      simp [omapGet, replaceFirst, Ne.symm h]
    · simp [omapGet, replaceFirst, hk, ih]

theorem omapGet_sortedInsert_self {m : List (α × β)} {a : α} (b : β)
    (h : omapGet m a = none) :
    omapGet (sortedInsert m a b) a = some b := by
  induction m with
  | nil => simp [sortedInsert, omapGet]
  | cons p t ih =>
    obtain ⟨k, v⟩ := p
    have hall := omapGet_eq_none_iff.mp h
    have hk : k ≠ a := hall (k, v) (by simp)
    have ht : omapGet t a = none :=
      omapGet_eq_none_iff.mpr (fun p hp => hall p (by simp [hp]))
    by_cases hlt : a < k
    · simp [sortedInsert, hlt, omapGet]
    · simp [sortedInsert, hlt, omapGet, hk, ih ht]

theorem omapGet_sortedInsert_ne {m : List (α × β)} {a c : α} (b : β) (h : c ≠ a) :
    omapGet (sortedInsert m a b) c = omapGet m c := by
  induction m with
  | nil => simp [sortedInsert, omapGet, Ne.symm h]
  | cons p t ih =>
    obtain ⟨k, v⟩ := p
    by_cases hlt : a < k
    · simp [sortedInsert, hlt, omapGet, Ne.symm h]
    · simp [sortedInsert, hlt, omapGet, ih]

theorem omapGet_omapSet_self {m : List (α × β)} {a : α} (b : β) :
    omapGet (omapSet m a b) a = some b := by
  unfold omapSet
  cases h : omapGet m a with
  | none => exact omapGet_sortedInsert_self b h
  | some w => exact omapGet_replaceFirst_self b h

theorem omapGet_omapSet_ne {m : List (α × β)} {a c : α} (b : β) (h : c ≠ a) :
    omapGet (omapSet m a b) c = omapGet m c := by
  unfold omapSet
  cases omapGet m a with
  | none => exact omapGet_sortedInsert_ne b h
  | some w => exact omapGet_replaceFirst_ne b h

theorem omapErase_of_get_none {m : List (α × β)} {a : α}
    (h : omapGet m a = none) :
    omapErase m a = m := by
  induction m with
  | nil => simp [omapErase]
  | cons p t ih =>
    obtain ⟨k, v⟩ := p
    have hall := omapGet_eq_none_iff.mp h
    have hk : k ≠ a := hall (k, v) (by simp)
    have ht : omapGet t a = none :=
      omapGet_eq_none_iff.mpr (fun p hp => hall p (by simp [hp]))
    simp [omapErase, hk, ih ht]

theorem omapErase_sortedInsert_of_not_mem {m : List (α × β)} {a : α} (b : β)
    (h : omapGet m a = none) :
    omapErase (sortedInsert m a b) a = m := by
  induction m with
  | nil => simp [sortedInsert, omapErase]
  | cons p t ih =>
    obtain ⟨k, v⟩ := p
    have hall := omapGet_eq_none_iff.mp h
    have hk : k ≠ a := hall (k, v) (by simp)
    have ht : omapGet t a = none :=
      omapGet_eq_none_iff.mpr (fun p hp => hall p (by simp [hp]))
    by_cases hlt : a < k
    · simp [sortedInsert, hlt, omapErase, hk]
      exact omapErase_of_get_none ht
    · simp [sortedInsert, hlt, omapErase, hk, ih ht]

theorem replaceFirst_replaceFirst {m : List (α × β)} {a : α} (b c : β) :
    replaceFirst (replaceFirst m a b) a c = replaceFirst m a c := by
  induction m with
  | nil => simp [replaceFirst]
  | cons p t ih =>
    obtain ⟨k, v⟩ := p
    by_cases hk : k = a
    · simp [replaceFirst, hk]
    · simp [replaceFirst, hk, ih]

theorem replaceFirst_self {m : List (α × β)} {a : α} {b : β}
    (h : omapGet m a = some b) :
    replaceFirst m a b = m := by
  induction m with
  | nil => simp [replaceFirst]
  | cons p t ih =>
    obtain ⟨k, v⟩ := p
    by_cases hk : k = a
    · subst hk
      simp [omapGet] at h
      simp [replaceFirst, h]
    · simp [omapGet, hk] at h
      simp [replaceFirst, hk, ih h]

theorem replaceFirst_sortedInsert_of_not_mem {m : List (α × β)} {a : α} (b c : β)
    (h : omapGet m a = none) :
    replaceFirst (sortedInsert m a b) a c = sortedInsert m a c := by
  induction m with
  | nil => simp [sortedInsert, replaceFirst]
  | cons p t ih =>
    obtain ⟨k, v⟩ := p
    have hall := omapGet_eq_none_iff.mp h
    have hk : k ≠ a := hall (k, v) (by simp)
    have ht : omapGet t a = none :=
      omapGet_eq_none_iff.mpr (fun p hp => hall p (by simp [hp]))
    by_cases hlt : a < k
    · simp [sortedInsert, hlt, replaceFirst]
    · simp [sortedInsert, hlt, replaceFirst, hk, ih ht]

theorem omapSet_omapSet {m : List (α × β)} {a : α} (b c : β) :
    omapSet (omapSet m a b) a c = omapSet m a c := by
  unfold omapSet
  cases h : omapGet m a with
  | none =>
    rw [omapGet_sortedInsert_self b h]
    exact replaceFirst_sortedInsert_of_not_mem b c h
  | some w =>
    rw [omapGet_replaceFirst_self b h]
    exact replaceFirst_replaceFirst b c

theorem omapSet_self {m : List (α × β)} {a : α} {b : β}
    (h : omapGet m a = some b) :
    omapSet m a b = m := by
  unfold omapSet
  rw [h]
  exact replaceFirst_self h

theorem mem_replaceFirst {m : List (α × β)} {a : α} {b : β} {p : α × β}
    (h : p ∈ replaceFirst m a b) : p ∈ m ∨ p = (a, b) := by
  induction m with
  | nil => simp [replaceFirst] at h
  | cons q t ih =>
    obtain ⟨k, v⟩ := q
    by_cases hk : k = a
    · simp [replaceFirst, hk] at h
      rcases h with h | h
      · right; simp [h]
      · left; simp [h]
    · simp [replaceFirst, hk] at h
      rcases h with h | h
      · left; simp [h]
      · rcases ih h with h' | h'
        · left; simp [h']
        · right; exact h'

theorem mem_sortedInsert {m : List (α × β)} {a : α} {b : β} {p : α × β}
    (h : p ∈ sortedInsert m a b) : p ∈ m ∨ p = (a, b) := by
  induction m with
  | nil => simpa [sortedInsert] using h
  | cons q t ih =>
    obtain ⟨k, v⟩ := q
    by_cases hlt : a < k
    · simp [sortedInsert, hlt] at h
      rcases h with h | h | h
      · right; simp [h]
      · left; simp [h]
      · left; simp [h]
    · simp [sortedInsert, hlt] at h
      rcases h with h | h
      · left; simp [h]
      · rcases ih h with h' | h'
        · left; simp [h']
        · right; exact h'

theorem mem_omapSet {m : List (α × β)} {a : α} {b : β} {p : α × β}
    (h : p ∈ omapSet m a b) : p ∈ m ∨ p = (a, b) := by
  unfold omapSet at h
  cases h2 : omapGet m a with
  | none => rw [h2] at h; exact mem_sortedInsert h
  | some w => rw [h2] at h; exact mem_replaceFirst h

theorem omapGet_mem {m : List (α × β)} {a : α} {b : β}
    (h : omapGet m a = some b) : (a, b) ∈ m := by
  induction m with
  | nil => simp [omapGet] at h
  | cons p t ih =>
    obtain ⟨k, v⟩ := p
    by_cases hk : k = a
    · subst hk
      simp [omapGet] at h
      simp [h]
    · simp [omapGet, hk] at h
      simp [ih h]

theorem omapGet_omapErase_self {m : List (α × β)} {a : α} :
    omapGet (omapErase m a) a = none := by
  induction m with
  | nil => simp [omapErase, omapGet]
  | cons p t ih =>
    obtain ⟨k, v⟩ := p
    by_cases hk : k = a
    · simpa [omapErase, hk] using ih
    · simpa [omapErase, hk, omapGet] using ih

theorem omapGet_omapErase_ne {m : List (α × β)} {a c : α} (h : c ≠ a) :
    omapGet (omapErase m a) c = omapGet m c := by
  induction m with
  | nil => simp [omapErase]
  | cons p t ih =>
    obtain ⟨k, v⟩ := p
    by_cases hk : k = a
    · subst hk
      simp [omapErase, omapGet, Ne.symm h, ih]
    · by_cases hkc : k = c
      · simp [omapErase, hk, omapGet, hkc, h]
      · simp [omapErase, hk, omapGet, hkc, ih]

theorem omapGet_eq_none_of_set {m : List (α × β)} {a c : α} {b : β}
    (h : omapGet (omapSet m a b) c = none) : omapGet m c = none := by
  by_cases hc : c = a
  · subst hc
    rw [omapGet_omapSet_self] at h
    exact absurd h (by simp)
  · rwa [omapGet_omapSet_ne b hc] at h

end OmapLemmas

/-! ### Lemmas about the engine's operations -/

theorem some_getD_of_isSome {o : Option α} {d : α} (h : o.isSome) :
    some (o.getD d) = o := by
  cases o with
  | none => simp at h
  | some x => rfl

/-! #### Maturation: return-value characterisation -/

theorem processImm_eq_none_iff {height : Int} {l : List (Int × CAmount)} :
    processImm height l = none ↔ ∃ q ∈ l, q.1 < height := by
  induction l with
  | nil => simp [processImm]
  | cons p t ih =>
    obtain ⟨k, v⟩ := p
    simp only [processImm]
    by_cases hk : k < height
    · simp only [if_pos hk]
      constructor
      · intro _
        exact ⟨(k, v), by simp, hk⟩
      · intro _
        trivial
    · simp only [if_neg hk]
      cases h2 : processImm height t with
      | none =>
        have ht := ih.mp h2
        constructor
        · intro _
          obtain ⟨q, hq, hlt⟩ := ht
          exact ⟨q, List.mem_cons_of_mem _ hq, hlt⟩
        · intro _
          trivial
      | some r =>
        obtain ⟨rest, tot⟩ := r
        have ht : ∀ q ∈ t, ¬(q.1 < height) := by
          intro q hq hlt
          have hcon := ih.mpr ⟨q, hq, hlt⟩
          rw [h2] at hcon
          exact absurd hcon (by simp)
        constructor
        · intro hcon
          have hcon2 : (if k = height then some (rest, tot + v)
              else some ((k, v) :: rest, tot)) = (none : Option (List (Int × CAmount) × CAmount)) := hcon
          by_cases hkh : k = height
          · rw [if_pos hkh] at hcon2
            exact absurd hcon2 (by simp)
          · rw [if_neg hkh] at hcon2
            exact absurd hcon2 (by simp)
        · rintro ⟨q, hq, hlt⟩
          rcases List.mem_cons.mp hq with h1 | h1
          · rw [h1] at hlt
            exact absurd hlt hk
          · exact absurd hlt (ht q h1)

theorem applyMatureList_fst_eq_false_iff {maturity height : Int} :
    ∀ (l : List (ScId × ScInfo)) (s : ScCoinsViewCache) (undo : CBlockUndo),
    (applyMatureList maturity height l s undo).1 = false ↔
      ∃ p ∈ l, ∃ q ∈ p.2.mImmatureAmounts, q.1 < height := by
  intro l
  induction l with
  | nil => intro s undo; simp [applyMatureList]
  | cons p t ih =>
    intro s undo
    obtain ⟨scId, info⟩ := p
    cases hrec : processImm height info.mImmatureAmounts with
    | none =>
      have := processImm_eq_none_iff.mp hrec
      simp only [applyMatureList, applyMatureRecord, hrec]
      constructor
      · intro _
        obtain ⟨q, hq, hlt⟩ := this
        exact ⟨(scId, info), by simp, q, hq, hlt⟩
      · intro _
        trivial
    | some r =>
      obtain ⟨rest, tot⟩ := r
      have hnone : ¬∃ q ∈ info.mImmatureAmounts, q.1 < height := by
        intro hcon
        rw [← processImm_eq_none_iff, hrec] at hcon
        exact absurd hcon (by simp)
      have hiff : ∀ s2 undo2,
          ((applyMatureList maturity height t s2 undo2).1 = false ↔
            ∃ p ∈ (scId, info) :: t, ∃ q ∈ p.2.mImmatureAmounts, q.1 < height) := by
        intro s2 undo2
        rw [ih]
        constructor
        · rintro ⟨p, hp, q, hq, hlt⟩
          exact ⟨p, List.mem_cons_of_mem _ hp, q, hq, hlt⟩
        · rintro ⟨p, hp, q, hq, hlt⟩
          rcases List.mem_cons.mp hp with h1 | h1
          · subst h1
            exact absurd ⟨q, hq, hlt⟩ hnone
          · exact ⟨p, h1, q, hq, hlt⟩
      by_cases htot : tot = 0
      · simp only [applyMatureList, applyMatureRecord, hrec, if_pos htot]
        exact hiff s undo
      · simp only [applyMatureList, applyMatureRecord, hrec, if_neg htot]
        exact hiff _ _

/-! #### Semantic validation: forward-amount checks -/

theorem checkFwdAmounts_eq_none_of_bad :
    ∀ (l : List CTxForwardTransferOut) (acc : CAmount),
    (∃ ft ∈ l, ft.nValue ≤ 0 ∨ MAX_MONEY < ft.nValue) →
    checkFwdAmounts l acc = none := by
  intro l
  induction l with
  | nil =>
    intro acc h
    exact absurd h (by simp)
  | cons ft rest ih =>
    intro acc h
    simp only [checkFwdAmounts]
    by_cases h1 : ft.nValue ≤ 0
    · simp [h1]
    · simp only [if_neg h1]
      by_cases h2 : ft.nValue > MAX_MONEY
      · simp [h2]
      · simp only [if_neg h2]
        by_cases h3 : acc + ft.nValue > MAX_MONEY
        · simp [h3]
        · simp only [if_neg h3]
          obtain ⟨g, hg, hbad⟩ := h
          rcases List.mem_cons.mp hg with heq | hg2
          · subst heq
            rcases hbad with hb | hb
            · exact absurd hb h1
            · exact absurd hb h2
          · exact ih _ ⟨g, hg2, hbad⟩

theorem checkFwdAmounts_some :
    ∀ (l : List CTxForwardTransferOut) (acc r : CAmount),
    checkFwdAmounts l acc = some r →
    r = acc + (l.map (fun ft => ft.nValue)).sum ∧ (r ≤ MAX_MONEY ∨ l = []) := by
  intro l
  induction l with
  | nil =>
    intro acc r h
    simp only [checkFwdAmounts, Option.some.injEq] at h
    subst h
    simp
  | cons ft rest ih =>
    intro acc r h
    simp only [checkFwdAmounts] at h
    by_cases h1 : ft.nValue ≤ 0
    · rw [if_pos h1] at h
      exact absurd h (by simp)
    · rw [if_neg h1] at h
      by_cases h2 : ft.nValue > MAX_MONEY
      · rw [if_pos h2] at h
        exact absurd h (by simp)
      · rw [if_neg h2] at h
        by_cases h3 : acc + ft.nValue > MAX_MONEY
        · rw [if_pos h3] at h
          exact absurd h (by simp)
        · rw [if_neg h3] at h
          obtain ⟨hsum, hbound⟩ := ih _ _ h
          constructor
          · rw [hsum]
            simp
            ring
          · left
            rcases hbound with hb | hb
            · exact hb
            · have hr : r = acc + ft.nValue := by
                rw [hsum, hb]
                simp
              rw [hr]
              exact le_of_not_lt h3

/-! ### Claim C1 — `checkTxSemanticValidity` on forward amounts -/

/-- Claim C1: `checkTxSemanticValidity` returns `false`, setting the
validation state to invalid with reject code `REJECT_INVALID` (16), whenever
some forward-transfer output's amount is not strictly positive or exceeds
`MAX_MONEY`, and whenever the cumulative sum of all forward-transfer amounts
of the transaction exceeds `MAX_MONEY` (the running sum is bounds-checked as
it is accumulated); and it returns `true` on a creation output accompanied by
a forward transfer whose total is positive and at most `MAX_MONEY`. -/
theorem checkTxSemanticValidity_claims (tx : CTransaction) (txh scId : Nat)
    (d : ScCreationData) (amt : CAmount) :
    ((∃ ft ∈ tx.vft_ccout, ft.nValue ≤ 0 ∨ MAX_MONEY < ft.nValue) →
      checkTxSemanticValidity tx = (false, CValidationState.invalid16)) ∧
    (MAX_MONEY < (tx.vft_ccout.map (fun ft => ft.nValue)).sum →
      checkTxSemanticValidity tx = (false, CValidationState.invalid16)) ∧
    (0 < amt → amt ≤ MAX_MONEY →
      checkTxSemanticValidity (createSidechainTxWith txh scId d amt) =
        (true, CValidationState.valid)) := by
  refine ⟨?_, ?_, ?_⟩
  · intro hbad
    have hvftne : tx.vft_ccout ≠ [] := by
      rintro hnil
      rw [hnil] at hbad
      exact absurd hbad (by simp)
    have hnone := checkFwdAmounts_eq_none_of_bad tx.vft_ccout 0 hbad
    have hemp : tx.vft_ccout.isEmpty = false := by
      simpa [List.isEmpty_iff] using hvftne
    by_cases htr : tx.isTransparent
    · simp [checkTxSemanticValidity, hemp, htr, hnone]
    · simp [checkTxSemanticValidity, hemp, htr]
  · intro hsum
    have hmm : (0 : Int) ≤ MAX_MONEY := by norm_num [MAX_MONEY]
    have hvftne : tx.vft_ccout ≠ [] := by
      rintro hnil
      rw [hnil] at hsum
      simp at hsum
      linarith
    have hnone : checkFwdAmounts tx.vft_ccout 0 = none := by
      cases h : checkFwdAmounts tx.vft_ccout 0 with
      | none => rfl
      | some r =>
        obtain ⟨hr, hb⟩ := checkFwdAmounts_some _ _ _ h
        rcases hb with hb | hb
        · rw [hr] at hb
          simp at hb
          linarith
        · exact absurd hb hvftne
    have hemp : tx.vft_ccout.isEmpty = false := by
      simpa [List.isEmpty_iff] using hvftne
    by_cases htr : tx.isTransparent
    · simp [checkTxSemanticValidity, hemp, htr, hnone]
    · simp [checkTxSemanticValidity, hemp, htr]
  · intro h1 h2
    have hne : ¬ amt ≤ 0 := not_le.mpr h1
    have hne2 : ¬ amt > MAX_MONEY := not_lt.mpr h2
    have hne3 : ¬ ((0 : Int) + amt > MAX_MONEY) := by simpa using hne2
    simp [checkTxSemanticValidity, createSidechainTxWith, checkFwdAmounts,
      fwdSumTo, hne, hne2, hne3, h1, h2]

/-- Claim C1, witness: the three branches of the claim instantiated at
concrete transactions — a zero-amount forward, a pair of forwards summing
past `MAX_MONEY`, and a creation funded by a forward of `1000`. -/
theorem checkTxSemanticValidity_claims_witness :
    checkTxSemanticValidity ⟨7, true, [⟨100, 0⟩], [⟨100, 0⟩]⟩ =
      (false, CValidationState.invalid16) ∧
    checkTxSemanticValidity ⟨7, true, [⟨100, 0⟩], [⟨100, 1⟩, ⟨100, MAX_MONEY⟩]⟩ =
      (false, CValidationState.invalid16) ∧
    checkTxSemanticValidity (createSidechainTxWith 7 100 0 1000) =
      (true, CValidationState.valid) := by
  refine ⟨?_, ?_, ?_⟩
  · exact (checkTxSemanticValidity_claims ⟨7, true, [⟨100, 0⟩], [⟨100, 0⟩]⟩
      7 100 0 1000).1 (by decide)
  · exact (checkTxSemanticValidity_claims
      ⟨7, true, [⟨100, 0⟩], [⟨100, 1⟩, ⟨100, MAX_MONEY⟩]⟩ 7 100 0 1000).2.1
      (by decide)
  · exact (checkTxSemanticValidity_claims ⟨7, true, [], []⟩ 7 100 0 1000).2.2
      (by decide) (by decide)

/-! ### Claim C3 — `ScInfo::operator==` -/

/-- Claim C3, counterexample: the inline `ScInfo::operator==` of
`sidechain.h` does not compare `balance`, so two records that differ only in
their balance compare equal — contradicting the claim that all fields,
balance included, must be bytewise equal and that two records differing only
in balance are unequal. -/
theorem scInfo_eqOp_ignores_balance_counterexample :
    ScInfo.eqOp ⟨1, 2, 3, 0, 4, [(10, 5)]⟩ ⟨1, 2, 3, 1, 4, [(10, 5)]⟩ = true ∧
    (⟨1, 2, 3, 0, 4, [(10, 5)]⟩ : ScInfo).balance ≠
      (⟨1, 2, 3, 1, 4, [(10, 5)]⟩ : ScInfo).balance ∧
    (⟨1, 2, 3, 0, 4, [(10, 5)]⟩ : ScInfo) ≠ ⟨1, 2, 3, 1, 4, [(10, 5)]⟩ := by
  decide

/-- Claim C3, amended: `ScInfo::operator==` returns true iff
`creationBlockHash`, `creationBlockHeight`, `creationTxHash`, `creationData`
and `mImmatureAmounts` (as ordered key/value sequences) are bytewise equal;
`balance` is not compared, so two records differing only in balance compare
equal. -/
theorem scInfo_eqOp_iff (a b : ScInfo) :
    ScInfo.eqOp a b = true ↔
      (a.creationBlockHash = b.creationBlockHash ∧
       a.creationBlockHeight = b.creationBlockHeight ∧
       a.creationTxHash = b.creationTxHash ∧
       a.creationData = b.creationData ∧
       a.mImmatureAmounts = b.mImmatureAmounts) := by
  simp [ScInfo.eqOp, and_assoc]

/-! ### Claim C5 — `IsTxApplicableToState` -/

/-- Claim C5: against the visible state (the supplied view's overlay if
present, else the committed map), `IsTxApplicableToState` returns true iff
every creation output's id does not already exist and every forward-transfer
output's target id does already exist; it is a pure query of the visible
state, so no state is mutated. -/
theorem isTxApplicableToState_iff (mgr : ScInfoMap)
    (view : Option ScCoinsViewCache) (tx : CTransaction) :
    IsTxApplicableToState mgr view tx = true ↔
      ((∀ cr ∈ tx.vsc_ccout, ScMgr.sidechainExists mgr view cr.scId = false) ∧
       (∀ ft ∈ tx.vft_ccout, ScMgr.sidechainExists mgr view ft.scId = true)) := by
  simp [IsTxApplicableToState, List.all_eq_true]

/-! ### Claim C10 — view construction loads committed state -/

/-- Claim C10: a freshly constructed `ScCoinsViewCache` starts with its
internal cache map equal to the manager's committed map — the overlay is
seeded with a full copy of committed state at construction, its erase and
dirty sets empty, and visibility through the fresh view agrees with the
manager's committed visibility on every id. -/
theorem newView_loads_committed_state (mgr : ScInfoMap) (scId : ScId) :
    (newView mgr).cacheScInfoMap = mgr ∧
    (newView mgr).sErase = [] ∧
    (newView mgr).sDirty = [] ∧
    ScCoinsViewCache.sidechainExistsView (newView mgr) scId =
      ScMgr.sidechainExists mgr none scId := by
  exact ⟨rfl, rfl, rfl, rfl⟩

/-! ### Claim C2 — the maturation height guard -/

/-- Claim C2, counterexample: a view holding one record with a nonempty
pending map whose only maturity key is `107` and a call of
`ApplyMatureBalances` at height `106`: no pending key equals the given
height, yet the call returns `true` — contradicting the claim that it must
return `false` whenever no pending entry's key equals the height (matching
unit test `InitialCoinsTransferDoesNotModifyScBalanceBeforeCoinsMaturity`).
-/
theorem applyMatureBalances_true_before_maturity_counterexample :
    (ApplyMatureBalances 100 106
        ⟨[(41394, ⟨10, 5, 7, 0, 0, [(107, 1000)]⟩)], [], []⟩ []).1 = true ∧
    (∀ q ∈ ([(107, 1000)] : List (Int × CAmount)), q.1 ≠ 106) ∧
    ([(107, 1000)] : List (Int × CAmount)) ≠ [] := by
  decide

/-- Claim C2, amended: `ApplyMatureBalances(height, blockUndo)` returns
`false` iff some cached record has a pending entry whose maturity key is
strictly less than the given height (a maturity that was already skipped);
when every pending key is at least the height — even if none equals it — the
call returns `true`. -/
theorem applyMatureBalances_false_iff_late (maturity height : Int)
    (s : ScCoinsViewCache) (undo : CBlockUndo) :
    (ApplyMatureBalances maturity height s undo).1 = false ↔
      ∃ p ∈ s.cacheScInfoMap, ∃ q ∈ p.2.mImmatureAmounts, q.1 < height := by
  exact applyMatureList_fst_eq_false_iff s.cacheScInfoMap s undo

/-! ### Claim C6 — reverting a forward transfer at the wrong height -/

/-- Claim C6: for a view whose record for `scId` carries exactly one immature
forward amount, recorded at height `h` and therefore keyed `h + maturity`,
reverting the forwarding transaction at any height other than `h` returns
`false` and leaves the whole overlay — in particular the immature entry at
`h + maturity`, still equal to the forwarded amount — unchanged. -/
theorem revertTxOutputs_wrong_height (M h h2 : Int) (scId : ScId)
    (amt : CAmount) (txh : Nat) (s : ScCoinsViewCache) (info : ScInfo)
    (hinfo : omapGet s.cacheScInfoMap scId = some info)
    (himm : info.mImmatureAmounts = [(h + M, amt)])
    (hne : h2 ≠ h) :
    RevertTxOutputs M (createFwdTransferTxWith txh scId amt) h2 s = (false, s) ∧
    omapGet info.mImmatureAmounts (h + M) = some amt := by
  constructor
  · have hget : omapGet info.mImmatureAmounts (h2 + M) = none := by
      rw [himm]
      simp only [omapGet]
      rw [if_neg (by omega : ¬(h + M = h2 + M))]
    have hstep : revertFwdC M h2 ⟨scId, amt⟩ s.cacheScInfoMap = none := by
      simp only [revertFwdC, hinfo, hget]
    simp [RevertTxOutputs, createFwdTransferTxWith, seqApplyS, revertFwdS, hstep]
  · rw [himm]
    simp [omapGet]

/-- Claim C6, witness: the scenario of unit test
`RevertingAFwdTransferOnTheWrongHeightHasNoEffect` — forward of `7` recorded
at height `5` with maturity `100`, reverted at height `4`. -/
theorem revertTxOutputs_wrong_height_witness :
    RevertTxOutputs 100 (createFwdTransferTxWith 8 41394 7) 4
      ⟨[(41394, ⟨3, 1, 7, 0, 0, [(105, 7)]⟩)], [], [41394]⟩ =
      (false, ⟨[(41394, ⟨3, 1, 7, 0, 0, [(105, 7)]⟩)], [], [41394]⟩) ∧
    omapGet (⟨3, 1, 7, 0, 0, [(105, 7)]⟩ : ScInfo).mImmatureAmounts 105 =
      some 7 := by
  exact revertTxOutputs_wrong_height 100 5 4 41394 7 8
    ⟨[(41394, ⟨3, 1, 7, 0, 0, [(105, 7)]⟩)], [], [41394]⟩
    ⟨3, 1, 7, 0, 0, [(105, 7)]⟩ (by decide) (by decide) (by decide)

/-! ### Claim C4 — partial application of `UpdateScInfo` -/

/-- Claim C4: a transaction that creates sidechain `A` with two forwards to
`A` and then forwards to a non-existent sidechain `B` fails `UpdateScInfo`,
but the outputs applied before the failing one remain in the cache: the
returned flag is `false`, `A` exists in the overlay, and `B` does not. -/
theorem updateScInfo_partial_application (M : Int) (mgr : ScInfoMap)
    (A B : ScId) (d : ScCreationData) (x y z : CAmount) (block : CBlock)
    (h : Int) (txh : Nat)
    (hA : omapGet mgr A = none) (hB : omapGet mgr B = none) (hAB : A ≠ B)
    (hx : x ≤ MAX_MONEY) (hxy : x + y ≤ MAX_MONEY) :
    (UpdateScInfo M ⟨txh, true, [⟨A, d⟩], [⟨A, x⟩, ⟨A, y⟩, ⟨B, z⟩]⟩ block h
      (newView mgr)).1 = false ∧
    ScCoinsViewCache.sidechainExistsView
      (UpdateScInfo M ⟨txh, true, [⟨A, d⟩], [⟨A, x⟩, ⟨A, y⟩, ⟨B, z⟩]⟩ block h
        (newView mgr)).2 A = true ∧
    ScCoinsViewCache.sidechainExistsView
      (UpdateScInfo M ⟨txh, true, [⟨A, d⟩], [⟨A, x⟩, ⟨A, y⟩, ⟨B, z⟩]⟩ block h
        (newView mgr)).2 B = false := by
  have hBA : B ≠ A := Ne.symm hAB
  have e1 : applyCrC block txh h ⟨A, d⟩ mgr =
      some (omapSet mgr A ⟨block.blockHash, h, txh, 0, d, []⟩) := by
    simp only [applyCrC, hA]
    rfl
  have hget0 : omapGet (omapSet mgr A
        (⟨block.blockHash, h, txh, 0, d, []⟩ : ScInfo)) A =
      some ⟨block.blockHash, h, txh, 0, d, []⟩ :=
    omapGet_omapSet_self _
  have e2 : applyFwdC M h ⟨A, x⟩
        (omapSet mgr A ⟨block.blockHash, h, txh, 0, d, []⟩) =
      some (omapSet (omapSet mgr A ⟨block.blockHash, h, txh, 0, d, []⟩) A
        ⟨block.blockHash, h, txh, 0, d, [(h + M, x)]⟩) := by
    simp only [applyFwdC, hget0]
    split
    · rename_i hcond
      exfalso
      simp [imSum, omapAdd, omapGet, omapSet, sortedInsert] at hcond
      exact absurd hcond (not_lt.mpr hx)
    · have harg : omapAdd ([] : List (Int × CAmount)) (h + M) x = [(h + M, x)] := rfl
      rw [harg]
  have hget1 : omapGet (omapSet (omapSet mgr A
          (⟨block.blockHash, h, txh, 0, d, []⟩ : ScInfo)) A
        (⟨block.blockHash, h, txh, 0, d, [(h + M, x)]⟩ : ScInfo)) A =
      some ⟨block.blockHash, h, txh, 0, d, [(h + M, x)]⟩ :=
    omapGet_omapSet_self _
  have e3 : applyFwdC M h ⟨A, y⟩
        (omapSet (omapSet mgr A ⟨block.blockHash, h, txh, 0, d, []⟩) A
          ⟨block.blockHash, h, txh, 0, d, [(h + M, x)]⟩) =
      some (omapSet (omapSet (omapSet mgr A ⟨block.blockHash, h, txh, 0, d, []⟩)
          A ⟨block.blockHash, h, txh, 0, d, [(h + M, x)]⟩) A
        ⟨block.blockHash, h, txh, 0, d, [(h + M, x + y)]⟩) := by
    have harg : omapAdd [(h + M, x)] (h + M) y = [(h + M, x + y)] := by
      simp [omapAdd, omapGet, omapSet, replaceFirst]
    simp only [applyFwdC, hget1, harg]
    split
    · rename_i hcond
      exfalso
      simp [imSum] at hcond
      exact absurd hcond (not_lt.mpr hxy)
    · rfl
  have hgetB2 : omapGet (omapSet (omapSet (omapSet mgr A
          (⟨block.blockHash, h, txh, 0, d, []⟩ : ScInfo)) A
        (⟨block.blockHash, h, txh, 0, d, [(h + M, x)]⟩ : ScInfo)) A
        (⟨block.blockHash, h, txh, 0, d, [(h + M, x + y)]⟩ : ScInfo)) B = none := by
    rw [omapGet_omapSet_ne _ hBA, omapGet_omapSet_ne _ hBA,
      omapGet_omapSet_ne _ hBA]
    exact hB
  have e4 : applyFwdC M h ⟨B, z⟩
        (omapSet (omapSet (omapSet mgr A ⟨block.blockHash, h, txh, 0, d, []⟩) A
          ⟨block.blockHash, h, txh, 0, d, [(h + M, x)]⟩) A
          ⟨block.blockHash, h, txh, 0, d, [(h + M, x + y)]⟩) = none := by
    simp only [applyFwdC, hgetB2]
  have hgetA2 : omapGet (omapSet (omapSet (omapSet mgr A
          (⟨block.blockHash, h, txh, 0, d, []⟩ : ScInfo)) A
        (⟨block.blockHash, h, txh, 0, d, [(h + M, x)]⟩ : ScInfo)) A
        (⟨block.blockHash, h, txh, 0, d, [(h + M, x + y)]⟩ : ScInfo)) A =
      some ⟨block.blockHash, h, txh, 0, d, [(h + M, x + y)]⟩ :=
    omapGet_omapSet_self _
  have res : UpdateScInfo M ⟨txh, true, [⟨A, d⟩], [⟨A, x⟩, ⟨A, y⟩, ⟨B, z⟩]⟩
      block h (newView mgr) =
      (false,
        ⟨omapSet (omapSet (omapSet mgr A ⟨block.blockHash, h, txh, 0, d, []⟩) A
          ⟨block.blockHash, h, txh, 0, d, [(h + M, x)]⟩) A
          ⟨block.blockHash, h, txh, 0, d, [(h + M, x + y)]⟩, [],
          sInsert A (sInsert A (sInsert A []))⟩) := by
    simp only [UpdateScInfo, seqApplyS, applyCrS, applyFwdS, newView,
      freshScInfo, e1, e2, e3, e4, Option.map_some', Option.map_none']
  rw [res]
  refine ⟨rfl, ?_, ?_⟩
  · simp [ScCoinsViewCache.sidechainExistsView, hgetA2]
  · simp [ScCoinsViewCache.sidechainExistsView, hgetB2]

/-- Claim C4, witness: the scenario of unit test
`NoRollbackIsPerformedOnceInvalidTransactionIsEncountered` — creation of
`0x1492` with forwards `10` and `20` plus a forward of `30` to the uncreated
`0x1912` — evaluated on an empty committed map. -/
theorem updateScInfo_partial_application_witness :
    (UpdateScInfo 100 ⟨9, true, [⟨5266, 0⟩], [⟨5266, 10⟩, ⟨5266, 20⟩, ⟨6418, 30⟩]⟩
      ⟨3⟩ 1789 (newView [])).1 = false ∧
    ScCoinsViewCache.sidechainExistsView
      (UpdateScInfo 100 ⟨9, true, [⟨5266, 0⟩], [⟨5266, 10⟩, ⟨5266, 20⟩, ⟨6418, 30⟩]⟩
        ⟨3⟩ 1789 (newView [])).2 5266 = true ∧
    ScCoinsViewCache.sidechainExistsView
      (UpdateScInfo 100 ⟨9, true, [⟨5266, 0⟩], [⟨5266, 10⟩, ⟨5266, 20⟩, ⟨6418, 30⟩]⟩
        ⟨3⟩ 1789 (newView [])).2 6418 = false := by
  exact updateScInfo_partial_application 100 [] 5266 6418 0 10 20 30 ⟨3⟩ 1789 9
    (by decide) (by decide) (by decide) (by decide) (by decide)

/-! ### Claim C8 — `RestoreImmatureBalances` failure and success cases -/

/-- Claim C8: `RestoreImmatureBalances` fails when the undo names an id that
is not visible, and fails without any mutation when a record's undo entries
cannot be replayed against its balance — in particular a single entry whose
amount exceeds the balance; when the entries are satisfiable it returns
`true` and the record's balance decreases by exactly the undone total. -/
theorem restoreImmatureBalances_claims (M : Int) (scId : ScId) (oh amt : Int)
    (hm : List (Int × CAmount)) (s : ScCoinsViewCache) (info info2 : ScInfo) :
    (omapGet s.cacheScInfoMap scId = none →
      RestoreImmatureBalances M s [(scId, hm)] = (false, s)) ∧
    (omapGet s.cacheScInfoMap scId = some info →
      restoreRecord M hm info = none →
      RestoreImmatureBalances M s [(scId, hm)] = (false, s)) ∧
    (info.balance < amt → restoreRecord M [(oh, amt)] info = none) ∧
    (omapGet s.cacheScInfoMap scId = some info →
      restoreRecord M hm info = some info2 →
      ∃ s2, RestoreImmatureBalances M s [(scId, hm)] = (true, s2) ∧
        omapGet s2.cacheScInfoMap scId = some info2 ∧
        info2.balance = info.balance - (hm.map (fun q => q.2)).sum) := by
  refine ⟨?_, ?_, ?_, ?_⟩
  · intro hnone
    simp [RestoreImmatureBalances, restoreList, hnone]
  · intro hsome hrec
    simp [RestoreImmatureBalances, restoreList, hsome, hrec]
  · intro hlt
    simp [restoreRecord, hlt]
  · intro hsome hrec
    refine ⟨⟨omapSet s.cacheScInfoMap scId info2, s.sErase, sInsert scId s.sDirty⟩,
      ?_, ?_, ?_⟩
    · simp [RestoreImmatureBalances, restoreList, hsome, hrec]
    · exact omapGet_omapSet_self info2
    · have : ∀ (l : List (Int × CAmount)) (i i2 : ScInfo),
          restoreRecord M l i = some i2 →
          i2.balance = i.balance - (l.map (fun q => q.2)).sum := by
        intro l
        induction l with
        | nil =>
          intro i i2 hr
          simp only [restoreRecord, Option.some.injEq] at hr
          subst hr
          simp
        | cons q rest ih =>
          intro i i2 hr
          obtain ⟨oh2, am⟩ := q
          simp only [restoreRecord] at hr
          by_cases hb : i.balance < am
          · rw [if_pos hb] at hr
            exact absurd hr (by simp)
          · rw [if_neg hb] at hr
            have := ih _ _ hr
            simp only [this]
            simp
            ring
      exact this hm info info2 hrec

/-- Claim C8, witness: the scenario of unit tests
`YouCannotRestoreMoreCoinsThanAvailableBalance` and
`RestoreImmatureBalancesAffectsScBalance`: a record with balance `34`,
restore of `50` fails with the state unchanged, restore of `17` succeeds and
leaves balance `17`; an undo naming an id missing from the view fails. -/
theorem restoreImmatureBalances_claims_witness :
    (RestoreImmatureBalances 100 ⟨[], [], []⟩ [(9, [(71, 10)])] =
      (false, ⟨[], [], []⟩)) ∧
    (restoreRecord 100 [(1991, 50)] ⟨1, 1991, 2, 34, 0, []⟩ = none) ∧
    (RestoreImmatureBalances 100 ⟨[(9, ⟨1, 1991, 2, 34, 0, []⟩)], [], []⟩
      [(9, [(1991, 50)])] = (false, ⟨[(9, ⟨1, 1991, 2, 34, 0, []⟩)], [], []⟩)) ∧
    (∃ s2, RestoreImmatureBalances 100 ⟨[(9, ⟨1, 1991, 2, 34, 0, []⟩)], [], []⟩
        [(9, [(1991, 17)])] = (true, s2) ∧
      omapGet s2.cacheScInfoMap 9 = some ⟨1, 1991, 2, 17, 0, [(2091, 17)]⟩ ∧
      (⟨1, 1991, 2, 17, 0, [(2091, 17)]⟩ : ScInfo).balance =
        (⟨1, 1991, 2, 34, 0, []⟩ : ScInfo).balance -
          (([(1991, (17 : CAmount))].map (fun q => q.2)).sum)) := by
  refine ⟨?_, ?_, ?_, ?_⟩
  · exact (restoreImmatureBalances_claims 100 9 71 10 [(71, 10)] ⟨[], [], []⟩
      ScInfo.default ScInfo.default).1 (by decide)
  · exact (restoreImmatureBalances_claims 100 9 1991 50 [(1991, 50)]
      ⟨[], [], []⟩ ⟨1, 1991, 2, 34, 0, []⟩ ScInfo.default).2.2.1 (by decide)
  · exact (restoreImmatureBalances_claims 100 9 1991 50 [(1991, 50)]
      ⟨[(9, ⟨1, 1991, 2, 34, 0, []⟩)], [], []⟩ ⟨1, 1991, 2, 34, 0, []⟩
      ScInfo.default).2.1 (by decide) (by decide)
  · exact (restoreImmatureBalances_claims 100 9 1991 17 [(1991, 17)]
      ⟨[(9, ⟨1, 1991, 2, 34, 0, []⟩)], [], []⟩ ⟨1, 1991, 2, 34, 0, []⟩
      ⟨1, 1991, 2, 17, 0, [(2091, 17)]⟩).2.2.2 (by decide) (by decide)

/-! ### Claim C9 — `Flush` aligns committed state with the overlay -/

theorem foldl_omapErase_get (l : List ScId) :
    ∀ (m : ScInfoMap) (id : ScId),
    omapGet (l.foldl (fun m i => omapErase m i) m) id =
      if id ∈ l then none else omapGet m id := by
  induction l with
  | nil =>
    intro m id
    simp
  | cons a t ih =>
    intro m id
    simp only [List.foldl_cons]
    rw [ih]
    by_cases hid : id ∈ t
    · simp [hid]
    · by_cases ha : id = a
      · subst ha
        simp [hid, omapGet_omapErase_self]
      · simp [hid, ha, omapGet_omapErase_ne ha]

theorem foldl_omapSet_get_not_mem (f : ScId → ScInfo) (l : List ScId) :
    ∀ (m : ScInfoMap) (id : ScId), id ∉ l →
    omapGet (l.foldl (fun m i => omapSet m i (f i)) m) id = omapGet m id := by
  induction l with
  | nil =>
    intro m id _
    simp
  | cons a t ih =>
    intro m id hid
    simp only [List.foldl_cons]
    have hia : id ≠ a := fun hc => hid (by simp [hc])
    have hit : id ∉ t := fun hc => hid (by simp [hc])
    rw [ih _ _ hit, omapGet_omapSet_ne _ hia]

theorem foldl_omapSet_get_mem (f : ScId → ScInfo) (l : List ScId) :
    ∀ (m : ScInfoMap) (id : ScId), id ∈ l →
    omapGet (l.foldl (fun m i => omapSet m i (f i)) m) id = some (f id) := by
  induction l with
  | nil =>
    intro m id hid
    exact absurd hid (by simp)
  | cons a t ih =>
    intro m id hid
    simp only [List.foldl_cons]
    by_cases hit : id ∈ t
    · exact ih _ _ hit
    · have hia : id = a := by
        rcases List.mem_cons.mp hid with h | h
        · exact h
        · exact absurd h hit
      subst hia
      rw [foldl_omapSet_get_not_mem _ _ _ _ hit, omapGet_omapSet_self]

/-- Claim C9: after a successful `Flush`, the committed map agrees with the
flushed overlay: every dirty record is present in the committed map with its
cached (bytewise-copied) content, every erased id is absent from the
committed map (`sidechainExists` is false for it), and every id touched by
neither set keeps its previously committed record. -/
theorem flush_aligns_committed_state (mgr : ScInfoMap) (s : ScCoinsViewCache)
    (hdisj : ∀ id ∈ s.sErase, id ∉ s.sDirty)
    (hdirty : ∀ id ∈ s.sDirty, (omapGet s.cacheScInfoMap id).isSome) :
    (Flush mgr s).1 = true ∧
    (∀ id ∈ s.sDirty,
      omapGet (Flush mgr s).2.1 id = omapGet s.cacheScInfoMap id) ∧
    (∀ id ∈ s.sErase, omapGet (Flush mgr s).2.1 id = none ∧
      ScMgr.sidechainExists (Flush mgr s).2.1 none id = false) ∧
    (∀ id, id ∉ s.sDirty → id ∉ s.sErase →
      omapGet (Flush mgr s).2.1 id = omapGet mgr id) := by
  refine ⟨rfl, ?_, ?_, ?_⟩
  · intro id hid
    have := foldl_omapSet_get_mem
      (fun i => (omapGet s.cacheScInfoMap i).getD ScInfo.default) s.sDirty
      (s.sErase.foldl (fun m scId => omapErase m scId) mgr) id hid
    simp only [Flush]
    rw [this]
    exact some_getD_of_isSome (hdirty id hid)
  · intro id hid
    have hnd : id ∉ s.sDirty := hdisj id hid
    have h1 := foldl_omapSet_get_not_mem
      (fun i => (omapGet s.cacheScInfoMap i).getD ScInfo.default) s.sDirty
      (s.sErase.foldl (fun m scId => omapErase m scId) mgr) id hnd
    have h2 := foldl_omapErase_get s.sErase mgr id
    rw [if_pos hid] at h2
    constructor
    · simp only [Flush]
      rw [h1, h2]
    · simp only [ScMgr.sidechainExists, Flush]
      rw [h1, h2]
      rfl
  · intro id hnd hne
    have h1 := foldl_omapSet_get_not_mem
      (fun i => (omapGet s.cacheScInfoMap i).getD ScInfo.default) s.sDirty
      (s.sErase.foldl (fun m scId => omapErase m scId) mgr) id hnd
    have h2 := foldl_omapErase_get s.sErase mgr id
    rw [if_neg hne] at h2
    simp only [Flush]
    rw [h1, h2]

/-- Claim C9, witness: a view holding one dirty record over an empty
committed map together with one erased id `6418`: after `Flush` the dirty
record is committed bytewise, the erased id does not exist, and an untouched
id keeps its (absent) committed record. -/
theorem flush_aligns_committed_state_witness :
    (Flush [(6418, ScInfo.default)]
      ⟨[(5266, ScInfo.default)], [6418], [5266]⟩).1 = true ∧
    omapGet (Flush [(6418, ScInfo.default)]
      ⟨[(5266, ScInfo.default)], [6418], [5266]⟩).2.1 5266 =
      omapGet [(5266, ScInfo.default)] 5266 ∧
    omapGet (Flush [(6418, ScInfo.default)]
      ⟨[(5266, ScInfo.default)], [6418], [5266]⟩).2.1 6418 = none ∧
    ScMgr.sidechainExists (Flush [(6418, ScInfo.default)]
      ⟨[(5266, ScInfo.default)], [6418], [5266]⟩).2.1 none 6418 = false ∧
    omapGet (Flush [(6418, ScInfo.default)]
      ⟨[(5266, ScInfo.default)], [6418], [5266]⟩).2.1 7 = omapGet [(6418, ScInfo.default)] 7 := by
  have h := flush_aligns_committed_state [(6418, ScInfo.default)]
    ⟨[(5266, ScInfo.default)], [6418], [5266]⟩ (by decide) (by decide)
  exact ⟨h.1, h.2.1 5266 (by decide), (h.2.2.1 6418 (by decide)).1,
    (h.2.2.1 6418 (by decide)).2, h.2.2.2 7 (by decide) (by decide)⟩

/-! ### Claim C7 — `UpdateScInfo` followed by `RevertTxOutputs` at the same
height restores the record map -/

theorem omapGet_omapAdd_self {m : List (Int × CAmount)} {k : Int} {v : CAmount} :
    omapGet (omapAdd m k v) k = some ((omapGet m k).getD 0 + v) := by
  unfold omapAdd
  cases h : omapGet m k with
  | none => simp [omapGet_omapSet_self]
  | some w => simp [omapGet_omapSet_self]

theorem mem_omapAdd {m : List (Int × CAmount)} {k : Int} {v : CAmount}
    {q : Int × CAmount} (h : q ∈ omapAdd m k v) :
    q ∈ m ∨ q = (k, (omapGet m k).getD 0 + v) := by
  unfold omapAdd at h
  split at h
  · rename_i w hg
    rcases mem_omapSet h with h2 | h2
    · exact Or.inl h2
    · right
      rw [hg]
      simpa using h2
  · rename_i hg
    rcases mem_omapSet h with h2 | h2
    · exact Or.inl h2
    · right
      rw [hg]
      simpa using h2

theorem applyCrC_inv {block : CBlock} {txh : Nat} {hgt : Int}
    {cr : CTxScCreationOut} {c c2 : ScInfoMap}
    (h : applyCrC block txh hgt cr c = some c2) :
    omapGet c cr.scId = none ∧
    c2 = omapSet c cr.scId (freshScInfo block txh hgt cr.creationData) := by
  unfold applyCrC at h
  cases hg : omapGet c cr.scId with
  | some w =>
    rw [hg] at h
    exact absurd h (by simp)
  | none =>
    rw [hg] at h
    simp only [Option.some.injEq] at h
    exact ⟨rfl, h.symm⟩

theorem applyFwdC_inv {M hgt : Int} {ft : CTxForwardTransferOut}
    {c c2 : ScInfoMap} (h : applyFwdC M hgt ft c = some c2) :
    ∃ info, omapGet c ft.scId = some info ∧
      ¬(info.balance + imSum (omapAdd info.mImmatureAmounts (hgt + M) ft.nValue) > MAX_MONEY) ∧
      c2 = omapSet c ft.scId
        { info with mImmatureAmounts := omapAdd info.mImmatureAmounts (hgt + M) ft.nValue } := by
  unfold applyFwdC at h
  split at h
  · exact absurd h (by simp)
  · rename_i info hg
    split at h
    · exact absurd h (by simp)
    · rename_i hcond
      simp only [Option.some.injEq] at h
      exact ⟨info, hg, hcond, h.symm⟩

theorem posImm_omapSet {c : ScInfoMap} {a : ScId} {info : ScInfo}
    (hpos : PosImm c) (hinfo : ∀ q ∈ info.mImmatureAmounts, 0 < q.2) :
    PosImm (omapSet c a info) := by
  intro p hp q hq
  rcases mem_omapSet hp with h2 | h2
  · exact hpos p h2 q hq
  · rw [h2] at hq
    exact hinfo q hq

theorem posImm_record {c : ScInfoMap} {a : ScId} {info : ScInfo}
    (hpos : PosImm c) (hg : omapGet c a = some info) :
    ∀ q ∈ info.mImmatureAmounts, 0 < q.2 :=
  hpos (a, info) (omapGet_mem hg)

theorem posImm_applyCrC {block : CBlock} {txh : Nat} {hgt : Int}
    {cr : CTxScCreationOut} {c c2 : ScInfoMap}
    (hpos : PosImm c) (h : applyCrC block txh hgt cr c = some c2) :
    PosImm c2 := by
  obtain ⟨-, rfl⟩ := applyCrC_inv h
  exact posImm_omapSet hpos (by simp [freshScInfo])

theorem posImm_applyFwdC {M hgt : Int} {ft : CTxForwardTransferOut}
    {c c2 : ScInfoMap} (hpos : PosImm c) (hft : 0 < ft.nValue)
    (h : applyFwdC M hgt ft c = some c2) : PosImm c2 := by
  obtain ⟨info, hg, -, rfl⟩ := applyFwdC_inv h
  refine posImm_omapSet hpos ?_
  intro q hq
  rcases mem_omapAdd hq with h2 | h2
  · exact posImm_record hpos hg q h2
  · rw [h2]
    cases hg2 : omapGet info.mImmatureAmounts (hgt + M) with
    | none => simpa using hft
    | some w =>
      have hw : 0 < w := posImm_record hpos hg _ (omapGet_mem hg2)
      show (0 : Int) < (some w).getD 0 + ft.nValue
      simp only [Option.getD_some]
      exact add_pos hw hft

theorem revertFwdC_applyFwdC {M hgt : Int} {ft : CTxForwardTransferOut}
    {c c2 : ScInfoMap} (hpos : PosImm c) (hft : 0 < ft.nValue)
    (h : applyFwdC M hgt ft c = some c2) :
    revertFwdC M hgt ft c2 = some c := by
  obtain ⟨info, hg, -, rfl⟩ := applyFwdC_inv h
  have hget2 : omapGet (omapSet c ft.scId
      { info with mImmatureAmounts := omapAdd info.mImmatureAmounts (hgt + M) ft.nValue })
      ft.scId = some { info with mImmatureAmounts := omapAdd info.mImmatureAmounts (hgt + M) ft.nValue } :=
    omapGet_omapSet_self _
  unfold revertFwdC
  rw [hget2]
  simp only [omapGet_omapAdd_self]
  cases hg2 : omapGet info.mImmatureAmounts (hgt + M) with
  | none =>
    have hlt : ¬((none : Option CAmount).getD 0 + ft.nValue < ft.nValue) := by
      simp
    rw [if_neg hlt]
    have hz : (none : Option CAmount).getD 0 + ft.nValue - ft.nValue = 0 := by
      simp
    rw [if_pos hz]
    have himm : omapErase (omapAdd info.mImmatureAmounts (hgt + M) ft.nValue)
        (hgt + M) = info.mImmatureAmounts := by
      unfold omapAdd
      rw [hg2]
      unfold omapSet
      rw [hg2]
      exact omapErase_sortedInsert_of_not_mem _ hg2
    rw [himm]
    have hback : ({ info with mImmatureAmounts := info.mImmatureAmounts } : ScInfo) = info := rfl
    rw [hback, omapSet_omapSet, omapSet_self hg]
  | some w =>
    have hw : 0 < w := posImm_record hpos hg _ (omapGet_mem hg2)
    have hlt : ¬((some w).getD 0 + ft.nValue < ft.nValue) := by
      simp only [Option.getD_some]
      exact not_lt.mpr (le_add_of_nonneg_left hw.le)
    rw [if_neg hlt]
    have hz : ¬((some w).getD 0 + ft.nValue - ft.nValue = 0) := by
      simp only [Option.getD_some, add_sub_cancel_right]
      exact hw.ne'
    rw [if_neg hz]
    have himm : omapSet (omapAdd info.mImmatureAmounts (hgt + M) ft.nValue)
        (hgt + M) ((some w).getD 0 + ft.nValue - ft.nValue) =
        info.mImmatureAmounts := by
      have hval : (some w).getD 0 + ft.nValue - ft.nValue = w := by
        simp
      rw [hval]
      unfold omapAdd
      rw [hg2]
      rw [omapSet_omapSet, omapSet_self hg2]
    rw [himm]
    have hback : ({ info with mImmatureAmounts := info.mImmatureAmounts } : ScInfo) = info := rfl
    rw [hback, omapSet_omapSet, omapSet_self hg]

theorem revertCrC_applyCrC {block : CBlock} {txh : Nat} {hgt : Int}
    {cr : CTxScCreationOut} {c c2 : ScInfoMap}
    (h : applyCrC block txh hgt cr c = some c2) :
    revertCrC hgt cr c2 = some c := by
  obtain ⟨hg, rfl⟩ := applyCrC_inv h
  have hget2 : omapGet
      (omapSet c cr.scId (freshScInfo block txh hgt cr.creationData)) cr.scId =
      some (freshScInfo block txh hgt cr.creationData) :=
    omapGet_omapSet_self _
  unfold revertCrC
  simp only [hget2]
  have hcond : (freshScInfo block txh hgt cr.creationData).creationBlockHeight = hgt := rfl
  rw [if_pos hcond]
  have hset : omapSet c cr.scId (freshScInfo block txh hgt cr.creationData) =
      sortedInsert c cr.scId (freshScInfo block txh hgt cr.creationData) := by
    unfold omapSet
    rw [hg]
  rw [hset, omapErase_sortedInsert_of_not_mem _ hg]

theorem seqApplyC_cons_true {f : α → ScInfoMap → Option ScInfoMap}
    {x : α} {xs : List α} {c c2 : ScInfoMap}
    (h : seqApplyC f (x :: xs) c = (true, c2)) :
    ∃ c1, f x c = some c1 ∧ seqApplyC f xs c1 = (true, c2) := by
  unfold seqApplyC at h
  cases hf : f x c with
  | none =>
    rw [hf] at h
    exact absurd h (by simp)
  | some c1 =>
    rw [hf] at h
    exact ⟨c1, rfl, h⟩

theorem seqApplyC_append (f : α → ScInfoMap → Option ScInfoMap) :
    ∀ (xs ys : List α) (c : ScInfoMap),
    seqApplyC f (xs ++ ys) c =
      match seqApplyC f xs c with
      | (true, c1) => seqApplyC f ys c1
      | (false, c1) => (false, c1) := by
  intro xs
  induction xs with
  | nil =>
    intro ys c
    simp [seqApplyC]
  | cons x t ih =>
    intro ys c
    simp only [List.cons_append, seqApplyC]
    cases hf : f x c with
    | none => simp
    | some c1 => simp [ih]

theorem seq_revertFwdC {M hgt : Int} :
    ∀ (fts : List CTxForwardTransferOut) (c c2 : ScInfoMap),
    PosImm c → (∀ ft ∈ fts, 0 < ft.nValue) →
    seqApplyC (applyFwdC M hgt) fts c = (true, c2) →
    seqApplyC (revertFwdC M hgt) fts.reverse c2 = (true, c) := by
  intro fts
  induction fts with
  | nil =>
    intro c c2 _ _ h
    simp only [seqApplyC, Prod.mk.injEq, true_and] at h
    rw [List.reverse_nil, h]
    rfl
  | cons ft rest ih =>
    intro c c2 hpos hvals h
    obtain ⟨c1, hstep, hrest⟩ := seqApplyC_cons_true h
    have hftv : 0 < ft.nValue := hvals ft (by simp)
    have hposc1 : PosImm c1 := posImm_applyFwdC hpos hftv hstep
    have hrev := ih c1 c2 hposc1 (fun g hg => hvals g (by simp [hg])) hrest
    rw [List.reverse_cons, seqApplyC_append, hrev]
    simp [seqApplyC, revertFwdC_applyFwdC hpos hftv hstep]

theorem seq_revertCrC {block : CBlock} {txh : Nat} {hgt : Int} :
    ∀ (crs : List CTxScCreationOut) (c c2 : ScInfoMap),
    seqApplyC (applyCrC block txh hgt) crs c = (true, c2) →
    seqApplyC (revertCrC hgt) crs.reverse c2 = (true, c) := by
  intro crs
  induction crs with
  | nil =>
    intro c c2 h
    simp only [seqApplyC, Prod.mk.injEq, true_and] at h
    rw [List.reverse_nil, h]
    rfl
  | cons cr rest ih =>
    intro c c2 h
    obtain ⟨c1, hstep, hrest⟩ := seqApplyC_cons_true h
    have hrev := ih c1 c2 hrest
    rw [List.reverse_cons, seqApplyC_append, hrev]
    simp [seqApplyC, revertCrC_applyCrC hstep]

theorem posImm_seq_applyCrC {block : CBlock} {txh : Nat} {hgt : Int} :
    ∀ (crs : List CTxScCreationOut) (c c2 : ScInfoMap),
    PosImm c → seqApplyC (applyCrC block txh hgt) crs c = (true, c2) →
    PosImm c2 := by
  intro crs
  induction crs with
  | nil =>
    intro c c2 hpos h
    simp only [seqApplyC, Prod.mk.injEq, true_and] at h
    rwa [← h]
  | cons cr rest ih =>
    intro c c2 hpos h
    obtain ⟨c1, hstep, hrest⟩ := seqApplyC_cons_true h
    exact ih c1 c2 (posImm_applyCrC hpos hstep) hrest

theorem seq_applyCrC_absent {block : CBlock} {txh : Nat} {hgt : Int} :
    ∀ (crs : List CTxScCreationOut) (c c2 : ScInfoMap),
    seqApplyC (applyCrC block txh hgt) crs c = (true, c2) →
    ∀ cr ∈ crs, omapGet c cr.scId = none := by
  intro crs
  induction crs with
  | nil =>
    intro c c2 _ cr hcr
    exact absurd hcr (by simp)
  | cons cr2 rest ih =>
    intro c c2 h cr hcr
    obtain ⟨c1, hstep, hrest⟩ := seqApplyC_cons_true h
    obtain ⟨hg, rfl⟩ := applyCrC_inv hstep
    rcases List.mem_cons.mp hcr with h1 | h1
    · rw [h1]
      exact hg
    · have := ih _ _ hrest cr h1
      exact omapGet_eq_none_of_set this

theorem seqApplyS_bridge (f : α → ScCoinsViewCache → Option ScCoinsViewCache)
    (core : α → ScInfoMap → Option ScInfoMap)
    (g1 g2 : α → List ScId → List ScId)
    (hf : ∀ x s, f x s = (core x s.cacheScInfoMap).map
      (fun c => ⟨c, g1 x s.sErase, g2 x s.sDirty⟩)) :
    ∀ (xs : List α) (s : ScCoinsViewCache),
    (seqApplyS f xs s).1 = (seqApplyC core xs s.cacheScInfoMap).1 ∧
    (seqApplyS f xs s).2.cacheScInfoMap = (seqApplyC core xs s.cacheScInfoMap).2 := by
  intro xs
  induction xs with
  | nil =>
    intro s
    exact ⟨rfl, rfl⟩
  | cons x t ih =>
    intro s
    simp only [seqApplyS, seqApplyC, hf]
    cases hc : core x s.cacheScInfoMap with
    | none => exact ⟨rfl, rfl⟩
    | some c1 =>
      simpa using ih ⟨c1, g1 x s.sErase, g2 x s.sDirty⟩

/-- Claim C7: a transaction successfully applied by `UpdateScInfo` at some
height and then reverted by `RevertTxOutputs` at the same height leaves the
revert returning `true` with the record map restored bytewise to its prior
state; in particular every sidechain created by the transaction is
non-existent in the overlay afterwards, and every forward-transfer amount —
the immature entry included — is backed out.  The hypotheses are the shape
every reachable overlay satisfies: pending amounts are strictly positive and
the transaction's forward amounts are strictly positive (guaranteed upstream
by `checkTxSemanticValidity`). -/
theorem updateScInfo_revertTxOutputs_roundtrip (M : Int) (tx : CTransaction)
    (block : CBlock) (hgt : Int) (s s2 : ScCoinsViewCache)
    (hpos : PosImm s.cacheScInfoMap)
    (hft : ∀ ft ∈ tx.vft_ccout, 0 < ft.nValue)
    (hupd : UpdateScInfo M tx block hgt s = (true, s2)) :
    (RevertTxOutputs M tx hgt s2).1 = true ∧
    (RevertTxOutputs M tx hgt s2).2.cacheScInfoMap = s.cacheScInfoMap ∧
    (∀ cr ∈ tx.vsc_ccout, ScCoinsViewCache.sidechainExistsView
      (RevertTxOutputs M tx hgt s2).2 cr.scId = false) := by
  have hbrCr := seqApplyS_bridge (applyCrS block tx.txHash hgt)
    (applyCrC block tx.txHash hgt) (fun _ e => e)
    (fun cr dd => sInsert cr.scId dd) (fun _ _ => rfl) tx.vsc_ccout s
  unfold UpdateScInfo at hupd
  cases e1 : seqApplyS (applyCrS block tx.txHash hgt) tx.vsc_ccout s with
  | mk b1 sA =>
    rw [e1] at hupd hbrCr
    cases b1 with
    | false => exact absurd hupd (by simp)
    | true =>
      have hupd2 : seqApplyS (applyFwdS M hgt) tx.vft_ccout sA = (true, s2) :=
        hupd
      have ecrC : seqApplyC (applyCrC block tx.txHash hgt) tx.vsc_ccout
          s.cacheScInfoMap = (true, sA.cacheScInfoMap) := by
        have h1 : (seqApplyC (applyCrC block tx.txHash hgt) tx.vsc_ccout
            s.cacheScInfoMap).1 = true := hbrCr.1.symm
        have h2 : (seqApplyC (applyCrC block tx.txHash hgt) tx.vsc_ccout
            s.cacheScInfoMap).2 = sA.cacheScInfoMap := hbrCr.2.symm
        rw [← h1, ← h2]
      have hbrFwd := seqApplyS_bridge (applyFwdS M hgt) (applyFwdC M hgt)
        (fun _ e => e) (fun ft dd => sInsert ft.scId dd) (fun _ _ => rfl)
        tx.vft_ccout sA
      rw [hupd2] at hbrFwd
      have efwC : seqApplyC (applyFwdC M hgt) tx.vft_ccout sA.cacheScInfoMap =
          (true, s2.cacheScInfoMap) := by
        have h1 : (seqApplyC (applyFwdC M hgt) tx.vft_ccout
            sA.cacheScInfoMap).1 = true := hbrFwd.1.symm
        have h2 : (seqApplyC (applyFwdC M hgt) tx.vft_ccout
            sA.cacheScInfoMap).2 = s2.cacheScInfoMap := hbrFwd.2.symm
        rw [← h1, ← h2]
      have hposA : PosImm sA.cacheScInfoMap :=
        posImm_seq_applyCrC tx.vsc_ccout s.cacheScInfoMap sA.cacheScInfoMap
          hpos ecrC
      have hrevF : seqApplyC (revertFwdC M hgt) tx.vft_ccout.reverse
          s2.cacheScInfoMap = (true, sA.cacheScInfoMap) :=
        seq_revertFwdC tx.vft_ccout sA.cacheScInfoMap s2.cacheScInfoMap hposA
          hft efwC
      have hrevC : seqApplyC (revertCrC hgt) tx.vsc_ccout.reverse
          sA.cacheScInfoMap = (true, s.cacheScInfoMap) :=
        seq_revertCrC tx.vsc_ccout s.cacheScInfoMap sA.cacheScInfoMap ecrC
      have habsent := seq_applyCrC_absent tx.vsc_ccout s.cacheScInfoMap
        sA.cacheScInfoMap ecrC
      -- now compute the revert pass
      have hbrRevF := seqApplyS_bridge (revertFwdS M hgt) (revertFwdC M hgt)
        (fun _ e => e) (fun ft dd => sInsert ft.scId dd) (fun _ _ => rfl)
        tx.vft_ccout.reverse s2
      cases e2 : seqApplyS (revertFwdS M hgt) tx.vft_ccout.reverse s2 with
      | mk bB sB =>
        rw [e2, hrevF] at hbrRevF
        have hbB : bB = true := hbrRevF.1
        have hsB : sB.cacheScInfoMap = sA.cacheScInfoMap := hbrRevF.2
        subst hbB
        have hgoal : RevertTxOutputs M tx hgt s2 =
            seqApplyS (revertCrS hgt) tx.vsc_ccout.reverse sB := by
          unfold RevertTxOutputs
          rw [e2]
        have hbrRevC := seqApplyS_bridge (revertCrS hgt) (revertCrC hgt)
          (fun cr ee => sInsert cr.scId ee)
          (fun cr dd => sRemove cr.scId dd) (fun _ _ => rfl)
          tx.vsc_ccout.reverse sB
        rw [hsB, hrevC] at hbrRevC
        have hfst : (seqApplyS (revertCrS hgt) tx.vsc_ccout.reverse sB).1 =
            true := hbrRevC.1
        have hsnd : (seqApplyS (revertCrS hgt)
            tx.vsc_ccout.reverse sB).2.cacheScInfoMap = s.cacheScInfoMap :=
          hbrRevC.2
        rw [hgoal]
        refine ⟨hfst, hsnd, ?_⟩
        intro cr hcr
        have hnone : omapGet s.cacheScInfoMap cr.scId = none :=
          habsent cr hcr
        simp only [ScCoinsViewCache.sidechainExistsView]
        rw [hsnd, hnone]
        rfl

/-- Claim C7, witness: creation of a sidechain with a forward of `10` applied
at height `1` over an empty committed map, then reverted at height `1`: the
revert succeeds, the record map is restored, and the created id no longer
exists in the overlay. -/
theorem updateScInfo_revertTxOutputs_roundtrip_witness :
    (RevertTxOutputs 100 (createSidechainTxWith 7 41394 0 10) 1
      (UpdateScInfo 100 (createSidechainTxWith 7 41394 0 10) ⟨3⟩ 1
        (newView [])).2).1 = true ∧
    (RevertTxOutputs 100 (createSidechainTxWith 7 41394 0 10) 1
      (UpdateScInfo 100 (createSidechainTxWith 7 41394 0 10) ⟨3⟩ 1
        (newView [])).2).2.cacheScInfoMap = (newView []).cacheScInfoMap ∧
    ScCoinsViewCache.sidechainExistsView
      (RevertTxOutputs 100 (createSidechainTxWith 7 41394 0 10) 1
        (UpdateScInfo 100 (createSidechainTxWith 7 41394 0 10) ⟨3⟩ 1
          (newView [])).2).2 41394 = false := by
  have h := updateScInfo_revertTxOutputs_roundtrip 100
    (createSidechainTxWith 7 41394 0 10) ⟨3⟩ 1 (newView [])
    (UpdateScInfo 100 (createSidechainTxWith 7 41394 0 10) ⟨3⟩ 1
      (newView [])).2
    (by simp [PosImm, newView]) (by decide) (by decide)
  exact ⟨h.1, h.2.1, h.2.2 ⟨41394, 0⟩ (by decide)⟩

end Sidechain
